import Mathlib

/-!
Verification development for the Guitariz harmonic-analysis backend.

The Python sources under `backend/` are shallowly embedded here:

* machine floats are modelled as exact rationals (`ℚ`);
* `np.sqrt` (inside `np.linalg.norm`) has no exact rational counterpart, so
  every function of the pipeline that calls it takes an explicit parameter
  `sq : ℚ → ℚ` standing for the floating-point square root; theorems either
  hold for every such `sq` or evaluate it on perfect squares only;
* external librosa collaborators (harmonic/percussive separation, beat
  tracking, chroma extraction, onset strength, autocorrelation) are fields of
  a `Collab` record: `analyze_file` is embedded as a function of that record;
* fallible code (Python `IndexError` on `final[-1]` with an empty list,
  `chord_name[0]` on an empty string) is embedded with `Option`, `none`
  standing for a raised exception;
* Python dicts with fixed key sets are embedded as structures; chord labels
  (Python strings) are embedded as `List Char`.
-/

/-! ## Basic vector / list primitives (numpy counterparts) -/

/-- Dot product of two rational vectors (`np.dot` on equal-length lists). -/
def dotQ (a b : List ℚ) : ℚ := (List.zipWith (· * ·) a b).sum

/-- Sum of squares of a vector: the square of `np.linalg.norm`. -/
def sumsq (v : List ℚ) : ℚ := dotQ v v

/-- Componentwise sum of a list of 12-vectors (`np.sum` over columns). -/
def colSum (cols : List (List ℚ)) : List ℚ :=
  cols.foldl (fun acc c => List.zipWith (· + ·) acc c) (List.replicate 12 0)

/-- Mean of a list of 12-vectors (`ndarray.mean(axis=1)` with columns listed).
In ℚ, division by zero yields 0, so the mean of an empty slice is the zero
vector (numpy would produce NaN there; theorems stay inside the in-range
regime where slices are nonempty). -/
def colMean (cols : List (List ℚ)) : List ℚ :=
  (colSum cols).map (fun x => x / (cols.length : ℚ))

/-- Median of three rationals. -/
def med3 (a b c : ℚ) : ℚ := max (min a b) (min (max a b) c)

/-- `scipy.ndimage.median_filter(chroma, size=(1,3))`: per pitch class, a
3-wide median across time with reflected boundaries. `cols` lists the chroma
columns (one 12-vector per frame). -/
def medFilt3 (cols : List (List ℚ)) : List (List ℚ) :=
  (List.range cols.length).map (fun t =>
    let a := cols.getD (t - 1) []
    let b := cols.getD t []
    let c := cols.getD (min (t + 1) (cols.length - 1)) []
    (List.range 12).map (fun i => med3 (a.getD i 0) (b.getD i 0) (c.getD i 0)))

/-- `librosa.frames_to_time(f, sr=sr, hop_length=hop) = f * hop / sr`,
written with `mkRat` (see `ftime_eq`) so that concrete runs evaluate without
unary-cast blowups. -/
def ftime (sr hop : ℕ) (f : ℕ) : ℚ := mkRat (f * hop) sr

/-- `np.arange(0, n, step)` over naturals. -/
def rangeStep (n step : ℕ) : List ℕ :=
  (List.range ((n + step - 1) / step)).map (· * step)

/-- First index of the maximum of a list, the documented semantics of
`np.argmax` (first occurrence wins ties); 0 on the empty list, where numpy
would raise instead (theorems only use nonempty score lists). -/
def argmaxIdx : List ℚ → ℕ
  | [] => 0
  | _ :: [] => 0
  | v :: w :: rest =>
      if v < (w :: rest).getD (argmaxIdx (w :: rest)) 0 then argmaxIdx (w :: rest) + 1 else 0

/-- `j` is the first index attaining the maximum of `l`. -/
def IsFirstMax (l : List ℚ) (j : ℕ) : Prop :=
  j < l.length ∧ (∀ k, k < l.length → l.getD k 0 ≤ l.getD j 0) ∧
    ∀ k, k < j → l.getD k 0 < l.getD j 0

/-! ## Data model -/

/-- One chord segment: the classifier's per-interval dict
`{"start": ..., "end": ..., "chord": ..., "confidence": ...}`. -/
structure Seg where
  start : ℚ
  stop : ℚ
  chord : List Char
  confidence : ℚ
deriving DecidableEq

/-- The analysis result dict. `meter` and `simpleChords` are `Option` because
the zero-length-input early return of `analyze_file` omits those keys. -/
structure AResult where
  tempo : ℚ
  meter : Option ℕ
  key : List Char
  scale : List Char
  chords : List Seg
  simpleChords : Option (List Seg)
deriving DecidableEq

/-- The "no chord" label `"N.C."`. -/
def NC : List Char := ['N', '.', 'C', '.']

/-! ## Chord template banks -/

/-- `PITCH_CLASS_NAMES` from `analysis.py` / `websocket_chords.py`. -/
def pcNames : List (List Char) :=
  [['C'], ['C', '#'], ['D'], ['D', '#'], ['E'], ['F'], ['F', '#'],
   ['G'], ['G', '#'], ['A'], ['A', '#'], ['B']]

/-- Quality dictionary of `analysis.py` (insertion order preserved). -/
def qualListA : List (List Char × List ℕ) :=
  [(['m', 'a', 'j'], [0, 4, 7]),
   (['m', 'i', 'n'], [0, 3, 7]),
   (['7'], [0, 4, 7, 10]),
   (['m', 'a', 'j', '7'], [0, 4, 7, 11]),
   (['m', 'i', 'n', '7'], [0, 3, 7, 10]),
   (['d', 'i', 'm'], [0, 3, 6]),
   (['a', 'u', 'g'], [0, 4, 8]),
   (['s', 'u', 's', '2'], [0, 2, 7]),
   (['s', 'u', 's', '4'], [0, 5, 7]),
   (['6'], [0, 4, 7, 9]),
   (['m', '6'], [0, 3, 7, 9])]

/-- Quality dictionary of `websocket_chords.py`: the first nine entries only
(no `6`, no `m6`). -/
def qualListW : List (List Char × List ℕ) := qualListA.take 9

/-- Chord label: root name, then the quality name unless it is `maj`. -/
def chordLabel (root : ℕ) (qname : List Char) : List Char :=
  pcNames.getD root [] ++ (if qname = ['m', 'a', 'j'] then [] else qname)

/-- Raw (pre-normalization) template vector of `analysis.py`: sequential
interval writes — assignment of 1.0, then `+= 0.1` at `(root+iv+12)%12`,
then `+= 0.05` at the fifth — and a final `+= 0.2` at the root. The fold
order matters: `sus4`-style overlaps overwrite earlier accumulations. -/
def mkVecA (root : ℕ) (ivs : List ℕ) : List ℚ :=
  let v := ivs.foldl (fun v iv =>
    let i1 := (root + iv) % 12
    let v1 := v.set i1 1
    let i2 := (root + iv + 12) % 12
    let v2 := v1.set i2 (v1.getD i2 0 + 0.1)
    let i3 := (root + iv + 7) % 12
    v2.set i3 (v2.getD i3 0 + 0.05)) (List.replicate 12 0)
  v.set (root % 12) (v.getD (root % 12) 0 + 0.2)

/-- Raw template vector of `websocket_chords.py`: plain 1.0 writes at the
chord tones, then `+= 0.2` at the root (no overtone terms). -/
def mkVecW (root : ℕ) (ivs : List ℕ) : List ℚ :=
  let v := ivs.foldl (fun v iv => v.set ((root + iv) % 12) 1) (List.replicate 12 0)
  v.set (root % 12) (v.getD (root % 12) 0 + 0.2)

/-- `CHORD_TEMPLATES` of `analysis.py`, kept pre-normalization (the stored
bank divides each vector by `np.linalg.norm(v) + 1e-9`; see `normBank`). -/
def analysisBank : List (List Char × List ℚ) :=
  (List.range 12).flatMap (fun r => qualListA.map (fun q => (chordLabel r q.1, mkVecA r q.2)))

/-- `CHORD_TEMPLATES` of `websocket_chords.py`, pre-normalization. -/
def websocketBank : List (List Char × List ℚ) :=
  (List.range 12).flatMap (fun r => qualListW.map (fun q => (chordLabel r q.1, mkVecW r q.2)))

/-- The normalization `v / (np.linalg.norm(v) + 1e-9)` applied to a bank,
with `sq` standing for the floating-point square root. -/
def normBank (sq : ℚ → ℚ) (bank : List (List Char × List ℚ)) : List (List Char × List ℚ) :=
  bank.map (fun p => (p.1, p.2.map (fun x => x / (sq (sumsq p.2) + 1e-9))))

/-! ## Chord label simplifiers -/

/-- Does `s` begin with `pat`? (Python `str.startswith`.) -/
def begW : List Char → List Char → Bool
  | [], _ => true
  | _ :: _, [] => false
  | p :: ps, c :: cs => p = c && begW ps cs

/-- Does `pat` occur as a contiguous substring of `s`? (Python `in`.) -/
def hasSub : List Char → List Char → Bool
  | pat, [] => pat.isEmpty
  | pat, c :: rest => begW pat (c :: rest) || hasSub pat rest

/-- Root/suffix split of `analysis._simplify_chord`:
`root = s[:2]` when `len(s) > 1 and s[1] == '#'`, else `s[:1]`. -/
def rootSplitA : List Char → List Char × List Char
  | [] => ([], [])
  | [c] => ([c], [])
  | c :: x :: tl => if x = '#' then ([c, '#'], tl) else ([c], x :: tl)

/-- Root/suffix split of `chord_madmom._simplify_chord`: also accepts `'b'`. -/
def rootSplitM : List Char → List Char × List Char
  | [] => ([], [])
  | [c] => ([c], [])
  | c :: x :: tl => if x = '#' ∨ x = 'b' then ([c, x], tl) else ([c], x :: tl)

/-- Suffix-to-label core of `analysis._simplify_chord` (the if-chain after
the root split). -/
def simpCoreA (root suf : List Char) : List Char :=
  if begW ['m', 'i', 'n'] suf || (begW ['m'] suf && !begW ['m', 'a', 'j'] suf) then
    if hasSub ['7'] suf || hasSub ['6'] suf then root ++ ['m', 'i', 'n', '7']
    else root ++ ['m', 'i', 'n']
  else if begW ['d', 'i', 'm'] suf then root ++ ['d', 'i', 'm']
  else if begW ['a', 'u', 'g'] suf then root ++ ['a', 'u', 'g']
  else if hasSub ['s', 'u', 's', '2'] suf then root ++ ['s', 'u', 's', '2']
  else if hasSub ['s', 'u', 's', '4'] suf then root ++ ['s', 'u', 's', '4']
  else if hasSub ['7'] suf then root ++ ['7']
  else root

/-- `analysis._simplify_chord`. `none` models the `IndexError` that
`chord_name[0]` raises on the empty string. -/
def simplifyA (s : List Char) : Option (List Char) :=
  if s = NC then some NC
  else
    match s with
    | [] => none
    | c :: rest =>
        let p := rootSplitA (c :: rest)
        some (simpCoreA p.1 p.2)

/-- Suffix-to-label core of `chord_madmom._simplify_chord` (note: substring
tests, not startswith; bare root means major). -/
def simpCoreM (root suf : List Char) : List Char :=
  if hasSub ['d', 'i', 'm'] suf then root ++ ['d', 'i', 'm']
  else if hasSub ['a', 'u', 'g'] suf then root ++ ['a', 'u', 'g']
  else if hasSub ['m'] suf && !hasSub ['m', 'a', 'j'] suf then root ++ ['m']
  else root

/-- `chord_madmom._simplify_chord`. Both `"N"` and `"N.C."` map to `"N.C."`. -/
def simplifyM (s : List Char) : Option (List Char) :=
  if s = ['N'] ∨ s = NC then some NC
  else
    match s with
    | [] => none
    | c :: rest =>
        let p := rootSplitM (c :: rest)
        some (simpCoreM p.1 p.2)

/-! ## Segment smoother (`analysis._smooth_chords`) and the madmom merge -/

/-- Pass-1 merge loop body: `current` is the pending segment; identical
labels extend `current`'s end and take the max confidence. -/
def mergeGo (cur : Seg) : List Seg → List Seg
  | [] => [cur]
  | s :: rest =>
      if s.chord = cur.chord then
        mergeGo { cur with stop := s.stop, confidence := max cur.confidence s.confidence } rest
      else cur :: mergeGo s rest

/-- Merge of consecutive identical chords — pass 1 of
`analysis._smooth_chords` and, verbatim, `chord_madmom._merge_consecutive`. -/
def mergeConsecutive : List Seg → List Seg
  | [] => []
  | s :: rest => mergeGo s rest

/-- Pass 2 of `_smooth_chords` for the iterations with `i >= 1`: the
while-loop over the remaining `pending` segments with the accumulating
`final` list kept in reverse (`rev`), so that `final[-1]` is the head.
`rest ≠ []` is Python's `i < len(merged) - 1`; `none` models the
`IndexError` raised by `final[-1]` when `final` is empty. -/
def pass2loop (minDur : ℚ) : List Seg → List Seg → Option (List Seg)
  | [], rev => some rev.reverse
  | curr :: rest, rev =>
      if curr.stop - curr.start < minDur then
        if rest ≠ [] then
          match rev with
          | [] => none
          | h :: t => pass2loop minDur rest ({ h with stop := curr.stop } :: t)
        else
          match rev with
          | [] => none
          | h :: t => pass2loop minDur rest ({ h with stop := curr.stop } :: t)
      else pass2loop minDur rest (curr :: rev)

/-- Pass 2 of `_smooth_chords`, iteration `i = 0`: a short first segment
donates its start to `merged[1]` (Python raises `IndexError` if there is no
`merged[1]`; `smoothChords` only reaches this with two or more segments),
an adequately long first segment is appended to `final`. -/
def pass2start (minDur : ℚ) (merged : List Seg) : Option (List Seg) :=
  match merged with
  | [] => some []
  | curr :: rest =>
      if curr.stop - curr.start < minDur then
        match rest with
        | [] => none
        | nxt :: rest2 => pass2loop minDur ({ nxt with start := curr.start } :: rest2) []
      else pass2loop minDur rest [curr]

/-- `analysis._smooth_chords`. -/
def smoothChords (chords : List Seg) (minDur : ℚ) : Option (List Seg) :=
  match chords with
  | [] => some []
  | _ =>
      let merged := mergeConsecutive chords
      if merged.length < 2 then some merged
      else pass2start minDur merged

/-! ## Key estimator (`analysis._estimate_key`) -/

/-- Krumhansl-Schmuckler major profile (`MAJOR_PROFILE`). -/
def majProfile : List ℚ :=
  [6.35, 2.23, 3.48, 2.33, 4.38, 4.09, 2.52, 5.19, 2.39, 3.66, 2.29, 2.88]

/-- Krumhansl-Schmuckler minor profile (`MINOR_PROFILE`). -/
def minProfile : List ℚ :=
  [6.33, 2.68, 3.52, 5.38, 2.60, 3.53, 2.54, 4.75, 3.98, 2.69, 3.34, 3.17]

/-- `np.roll(p, t)`: the rolled vector has `p[(i - t) % 12]` at position `i`. -/
def rollP (p : List ℚ) (t : ℕ) : List ℚ :=
  (List.range 12).map (fun i => p.getD ((i + 12 - t % 12) % 12) 0)

/-- The 24 key candidates in source iteration order (tonic 0..11, major then
minor), paired with their dot-product scores against the mean chroma `m`. -/
def keyCands (m : List ℚ) : List ((List Char × List Char) × ℚ) :=
  (List.range 12).flatMap (fun t =>
    [((pcNames.getD t [], ['m', 'a', 'j', 'o', 'r']), dotQ m (rollP majProfile t)),
     ((pcNames.getD t [], ['m', 'i', 'n', 'o', 'r']), dotQ m (rollP minProfile t))])

/-- The strict-greater best-tracking fold of `_estimate_key`'s loop. -/
def keyFold (l : List ((List Char × List Char) × ℚ)) (acc : ℚ × (List Char × List Char)) :
    ℚ × (List Char × List Char) :=
  l.foldl (fun b p => if b.1 < p.2 then (p.2, p.1) else b) acc

/-- `analysis._estimate_key` on a chroma matrix given as a list of columns:
mean chroma over time, zero-sum default, otherwise the 24-candidate scan
starting from `best_score = -1e9`, `best = ("C", "major")`. -/
def estimateKey (chroma : List (List ℚ)) : List Char × List Char :=
  let m := colMean chroma
  if m.sum = 0 then (['C'], ['m', 'a', 'j', 'o', 'r'])
  else (keyFold (keyCands m) (-1e9, (['C'], ['m', 'a', 'j', 'o', 'r']))).2

/-! ## Chord segmenter/classifier (`analysis._segment_chords`) -/

/-- Loop body of `_segment_chords` for one boundary pair `(b1, b2)` with
`b2 > b1`: slice `[b1, b2)` of the (already median-filtered) chroma, mean,
silence test against 0.05, normalization by `norm + 1e-9`, template scores,
in-place persistence bias `scores[prev] *= 1.2`, first-max argmax, and the
confidence recomputed as the unbiased dot with the selected template, clamped
by `min(1.0, ...)`. Returns the emitted segment and the new
`prev_chord_idx` (`none` encodes `-1`). -/
def classifyWindow (sq : ℚ → ℚ) (templates : List (List Char × List ℚ))
    (chroma : List (List ℚ)) (sr hop b1 b2 : ℕ) (prev : Option ℕ) : Seg × Option ℕ :=
  let cols := (chroma.drop b1).take (b2 - b1)
  let vec := colMean cols
  let nrm := sq (sumsq vec)
  if nrm < 0.05 then (⟨ftime sr hop b1, ftime sr hop b2, NC, 0⟩, none)
  else
    let vecN := vec.map (fun x => x / (nrm + 1e-9))
    let scores := templates.map (fun t => dotQ vecN t.2)
    let scores2 :=
      match prev with
      | some p => scores.set p (scores.getD p 0 * 1.2)
      | none => scores
    let best := argmaxIdx scores2
    let conf := dotQ vecN (templates.getD best ([], [])).2
    (⟨ftime sr hop b1, ftime sr hop b2, (templates.getD best ([], [])).1, min 1 conf⟩, some best)

/-- The boundary loop of `_segment_chords`: consecutive beat pairs, pairs
with `e_frame <= s_frame` skipped (leaving `prev_chord_idx` untouched). -/
def segLoop (sq : ℚ → ℚ) (templates : List (List Char × List ℚ))
    (chroma : List (List ℚ)) (sr hop : ℕ) : List ℕ → Option ℕ → List Seg
  | b1 :: b2 :: rest, prev =>
      if b2 ≤ b1 then segLoop sq templates chroma sr hop (b2 :: rest) prev
      else
        let r := classifyWindow sq templates chroma sr hop b1 b2 prev
        r.1 :: segLoop sq templates chroma sr hop (b2 :: rest) r.2
  | _, _ => []

/-- `analysis._segment_chords`: median smoothing, the under-2-beats fallback
to ~0.5 s uniform boundaries (`max(1, time_to_frames(0.5))` frames per step),
then the classification loop starting from `prev_chord_idx = -1`. -/
def segmentChords (sq : ℚ → ℚ) (templates : List (List Char × List ℚ))
    (chroma : List (List ℚ)) (sr hop : ℕ) (beats : List ℕ) : List Seg :=
  let chroma2 := medFilt3 chroma
  let beats2 :=
    if beats.length < 2 then rangeStep chroma2.length (max 1 (sr / (2 * hop))) else beats
  segLoop sq templates chroma2 sr hop beats2 none

/-! ## External collaborators and `analysis.analyze_file` -/

/-- The librosa/numpy collaborators `analyze_file` calls, plus the float
square root. `analyze_file` is embedded as a function of this record. -/
structure Collab where
  sq : ℚ → ℚ
  hpssH : List ℚ → List ℚ
  beatTrack : List ℚ → ℚ × List ℕ
  chromaCqt : List ℚ → List (List ℚ)
  onsetStrength : List ℚ → List ℚ
  autocorrelate : List ℚ → ℕ → List ℚ

/-- `analysis._estimate_meter`: default 4 for non-positive tempo, otherwise
compare the onset autocorrelation at the 3-beat and 4-beat lags
(`int()` truncation on positive lags is `floor`); 3 only when
`score3 > score4 * 1.1`. The source's blanket `except: return 4` has no
counterpart because the embedded collaborators are total. -/
def estimateMeter (M : Collab) (y : List ℚ) (sr : ℕ) (tempo : ℚ) : ℕ :=
  if tempo ≤ 0 then 4
  else
    let hop : ℕ := 512
    let env := M.onsetStrength y
    let beatGap : ℚ := 60 / tempo * sr / hop
    let lag3 := (beatGap * 3).floor.toNat
    let lag4 := (beatGap * 4).floor.toNat
    let ac := M.autocorrelate env (max lag3 lag4 + 2)
    let s3 := if lag3 < ac.length then ac.getD lag3 0 else 0
    let s4 := if lag4 < ac.length then ac.getD lag4 0 else 0
    if s4 * 1.1 < s3 then 3 else 4

/-- `np.finfo(np.float64).tiny`, the threshold of `librosa.util.normalize`. -/
def tinyFloat : ℚ := mkRat 1 (2 ^ 1022)

/-- `librosa.util.normalize(chroma, axis=0)`: each column is divided by its
max absolute value; columns below the tiny threshold stay as they are. -/
def normalizeCols (cols : List (List ℚ)) : List (List ℚ) :=
  cols.map (fun c =>
    let m := (c.map (fun x => |x|)).foldl max 0
    if m < tinyFloat then c else c.map (fun x => x / m))

/-- Python 3 banker's rounding (`round`) to an integer. -/
def roundHalfEven (q : ℚ) : ℤ :=
  let f := ⌊q⌋
  let r := q - f
  if r < 1 / 2 then f else if 1 / 2 < r then f + 1 else if 2 ∣ f then f else f + 1

/-- `round(x, 2)` as in `float(round(float(tempo), 2))`. -/
def roundTo2 (q : ℚ) : ℚ := (roundHalfEven (q * 100) : ℚ) / 100

/-- The simple-chords loop of `analyze_file`: per segment, replace the label
by its simplification; `none` models the `IndexError` `_simplify_chord`
raises on an empty label. -/
def simpleSegsA : List Seg → Option (List Seg)
  | [] => some []
  | c :: rest =>
      match simplifyA c.chord with
      | none => none
      | some l => (simpleSegsA rest).map (fun bs => { c with chord := l } :: bs)

/-- The early return of `analyze_file` for a zero-length decoded signal:
`{"tempo": 0, "key": "C", "scale": "major", "chords": []}` — note the missing
`meter` and `simpleChords` keys, rendered as `none`. -/
def zeroResult : AResult := ⟨0, none, ['C'], ['m', 'a', 'j', 'o', 'r'], [], none⟩

/-- `analysis.analyze_file` after a successful decode, with
`separate_vocals=False`: zero-length early return, harmonic separation, beat
tracking, CQT chroma + column normalization, key and meter estimation, the
under-2-beats artificial-boundary fallback `arange(0, frames, 22050 // 1024)`,
precise segmentation against the global template bank, per-segment label
simplification, and the two smoothing passes (0.2 s and 0.8 s). `none`
models an uncaught exception inside the body. -/
def analyzeFile (M : Collab) (y : List ℚ) : Option AResult :=
  if y.length = 0 then some zeroResult
  else
    let sr : ℕ := 22050
    let hop : ℕ := 512
    let yh := M.hpssH y
    let tb := M.beatTrack y
    let chroma := normalizeCols (M.chromaCqt yh)
    let ks := estimateKey chroma
    let meter := estimateMeter M y sr tb.1
    let beatF := if tb.2.length < 2 then rangeStep chroma.length (22050 / (2 * hop)) else tb.2
    let chords := segmentChords M.sq (normBank M.sq analysisBank) chroma sr hop beatF
    do
      let simple ← simpleSegsA chords
      let mp ← smoothChords chords 0.2
      let ms ← smoothChords simple 0.8
      some ⟨roundTo2 tb.1, some meter, ks.1, ks.2, mp, some ms⟩

/-! ## Fast path (`chord_madmom`) -/

/-- The `while tempo < 70: tempo *= 2` loop of `detect_tempo_madmom`. The
source loop diverges on `tempo <= 0`; the guard `0 < t` makes the recursion
well-founded and theorems only use strictly positive tempi, matching the
claim's premise. -/
def doubleUp (t : ℚ) : ℚ :=
  if h : 0 < t ∧ t < 70 then doubleUp (2 * t) else t
termination_by Nat.ceil (70 / t)
decreasing_by
  obtain ⟨h1, h2⟩ := h
  have hx : (1 : ℚ) < 70 / t := (one_lt_div h1).mpr h2
  have h2c : 2 ≤ Nat.ceil ((70 : ℚ) / t) := Nat.lt_ceil.mpr (by exact_mod_cast hx)
  have hrw : 70 / (2 * t) = 70 / t / 2 := by
    rw [div_div]; ring_nf
  have hub : Nat.ceil ((70 : ℚ) / t / 2) ≤ Nat.ceil ((70 : ℚ) / t) - 1 := by
    rw [Nat.ceil_le]
    have hcast : ((Nat.ceil ((70 : ℚ) / t) - 1 : ℕ) : ℚ)
        = (Nat.ceil ((70 : ℚ) / t) : ℚ) - 1 := by
      push_cast [Nat.cast_sub (by omega : 1 ≤ Nat.ceil ((70 : ℚ) / t))]
      ring
    rw [hcast]
    have hle := Nat.le_ceil ((70 : ℚ) / t)
    have h2q : (2 : ℚ) ≤ (Nat.ceil ((70 : ℚ) / t) : ℚ) := by exact_mod_cast h2c
    linarith
  rw [hrw]
  omega

/-- The `while tempo > 190: tempo /= 2` loop of `detect_tempo_madmom`. -/
def halveDown (t : ℚ) : ℚ :=
  if h : 190 < t then halveDown (t / 2) else t
termination_by Nat.ceil t
decreasing_by
  have hx : (1 : ℚ) < t := by linarith
  have h2c : 2 ≤ Nat.ceil t := Nat.lt_ceil.mpr (by exact_mod_cast hx)
  have hub : Nat.ceil (t / 2) ≤ Nat.ceil t - 1 := by
    rw [Nat.ceil_le]
    have hcast : ((Nat.ceil t - 1 : ℕ) : ℚ) = (Nat.ceil t : ℚ) - 1 := by
      push_cast [Nat.cast_sub (by omega : 1 ≤ Nat.ceil t)]
      ring
    rw [hcast]
    have hle := Nat.le_ceil t
    linarith
  omega

/-- The range normalization and rounding of `detect_tempo_madmom` applied to
a raw tempo estimate: the doubled/halved value is rounded with Python's
banker's rounding, and this rounded value is both written to the cache file
and returned. -/
def normalizeTempo (t : ℚ) : ℤ := roundHalfEven (halveDown (doubleUp t))

/-- Python `key_str.split(" ", 1)` succeeding only when a space occurs. -/
def splitSp : List Char → Option (List Char × List Char)
  | [] => none
  | c :: rest =>
      if c = ' ' then some ([], rest)
      else (splitSp rest).map (fun p => (c :: p.1, p.2))

/-- Key-string parsing of `analyze_file_madmom`: split at the first space,
else strip a trailing `m` as minor, else major. -/
def parseKeyStr (ks : List Char) : List Char × List Char :=
  match splitSp ks with
  | some p => p
  | none =>
      if ks.getLast? = some 'm' then (ks.dropLast, ['m', 'i', 'n', 'o', 'r'])
      else (ks, ['m', 'a', 'j', 'o', 'r'])

/-- The chord-formatting loop of `analyze_file_madmom` restricted to the
simple view: every simplified segment carries confidence 0.95. -/
def simpleSegsM : List (ℚ × ℚ × List Char) → Option (List Seg)
  | [] => some []
  | c :: rest =>
      match simplifyM c.2.2 with
      | none => none
      | some l => (simpleSegsM rest).map (fun bs => (⟨c.1, c.2.1, l, 0.95⟩ : Seg) :: bs)

/-- `chord_madmom.analyze_file_madmom` downstream of the three detectors:
`chords` is the formatted `(start, end, label)` list from
`detect_chords_madmom`, `keyStr` and `tempo` the other detector outputs.
Every segment is given confidence 0.95, labels are simplified for the simple
view, both lists get the consecutive-duplicate merge, and `meter` is the
constant 4. -/
def analyzeFileMadmom (chords : List (ℚ × ℚ × List Char)) (keyStr : List Char)
    (tempo : ℚ) : Option AResult :=
  let formatted := chords.map (fun c => (⟨c.1, c.2.1, c.2.2, 0.95⟩ : Seg))
  do
    let simple ← simpleSegsM chords
    let fc := mergeConsecutive formatted
    let sc := mergeConsecutive simple
    let ks := parseKeyStr keyStr
    some ⟨tempo, some 4, ks.1, ks.2, fc, some sc⟩

/-! ## Canonical simplifier outputs and concrete instances for scenarios -/

/-- The eight suffixes `analysis._simplify_chord` can attach to a root. -/
def canonsA : List (List Char) :=
  [['m', 'i', 'n', '7'], ['m', 'i', 'n'], ['d', 'i', 'm'], ['a', 'u', 'g'],
   ['s', 'u', 's', '2'], ['s', 'u', 's', '4'], ['7'], []]

/-- The four suffixes `chord_madmom._simplify_chord` can attach to a root. -/
def canonsM : List (List Char) := [['d', 'i', 'm'], ['a', 'u', 'g'], ['m'], []]

/-- Square-root model exact on the perfect square 1 (the only value scenario
runs evaluate it on). -/
def sqOne : ℚ → ℚ := fun q => if q = 1 then 1 else 0

/-- Two-template bank realizing the spec scenario of C1: against a unit
pitch-class-0 mean chroma, `Cmin` scores exactly 0.9 and `G` exactly 0.85
(the factor `1 + 1e-9` cancels the normalization denominator). -/
def scenBank : List (List Char × List ℚ) :=
  [(['C', 'm', 'i', 'n'], [0.9 * (1 + 1e-9), 0, 0, 0, 0, 0, 0, 0, 0, 0, 0, 0]),
   (['G'], [0.85 * (1 + 1e-9), 0, 0, 0, 0, 0, 0, 0, 0, 0, 0, 0])]

/-- Twenty frames of a pure pitch-class-0 chroma column. -/
def scenChroma : List (List ℚ) :=
  List.replicate 20 [1, 0, 0, 0, 0, 0, 0, 0, 0, 0, 0, 0]

/-- Trivial square-root model for silent runs. -/
def sqZero : ℚ → ℚ := fun _ => 0

/-- One-entry dummy bank for runs that stay in the silence branch. -/
def zBank : List (List Char × List ℚ) := [(['X'], List.replicate 12 0)]

/-- Forty-two frames of all-zero chroma. -/
def zChroma : List (List ℚ) := List.replicate 42 (List.replicate 12 0)

/-- Collaborator instance for an all-zero waveform: the harmonic component of
silence is silence, beat tracking finds tempo 0 and no beats, and the CQT
chroma of silence is all-zero columns (spec §4.2: zero-energy input yields
all-zero columns); 22 frames are produced here. -/
def silentCollab : Collab :=
  ⟨fun _ => 0, id, fun _ => (0, []),
   fun _ => List.replicate 22 (List.replicate 12 0), fun _ => [], fun _ _ => []⟩

/-- An all-zero (but nonempty) decoded waveform. -/
def ySilent : List ℚ := List.replicate 8 0

/-- The single merged `N.C.` segment that `analyze_file` produces on
`ySilent` under `silentCollab` (artificial beats `[0, 21]`, `21 * 512 / 22050 = 256/525`). -/
def ncSilentSeg : Seg := ⟨0, 256 / 525, NC, 0⟩

/-- The normalized mean chroma of the second scenario window `[10, 20)`. -/
def scenVecN : List ℚ :=
  (colMean ((scenChroma.drop 10).take (20 - 10))).map
    (fun x => x / (sqOne (sumsq (colMean ((scenChroma.drop 10).take (20 - 10)))) + 1e-9))

/-- The unbiased template scores of the second scenario window. -/
def scenScores : List ℚ := scenBank.map (fun t => dotQ scenVecN t.2)

/-- The persistence-biased scores of the second scenario window (previous
index 0, the `Cmin` template). -/
def scenBiased : List ℚ := scenScores.set 0 (scenScores.getD 0 0 * 1.2)

/-! ## Generic lemmas -/

lemma ftime_eq (sr hop f : ℕ) : ftime sr hop f = ((f * hop : ℕ) : ℚ) / (sr : ℚ) := by
  unfold ftime
  rw [Rat.mkRat_eq_div]
  push_cast
  ring

lemma getD_map_lt {α β : Type} (f : α → β) (l : List α) (j : ℕ) (d : β) (d2 : α)
    (h : j < l.length) : (l.map f).getD j d = f (l.getD j d2) := by
  induction l generalizing j with
  | nil => simp at h
  | cons a tl ih =>
      cases j with
      | zero => rfl
      | succ n => simpa using ih n (by simpa using h)

lemma argmaxIdx_isFirstMax : ∀ l : List ℚ, l ≠ [] → IsFirstMax l (argmaxIdx l) := by
  intro l
  induction l with
  | nil => intro h; exact absurd rfl h
  | cons v rest ih =>
      intro _
      cases rest with
      | nil =>
          have h0 : argmaxIdx [v] = 0 := rfl
          refine ⟨by rw [h0]; exact Nat.zero_lt_one, ?_, ?_⟩
          · intro k hk
            have hk1 : k = 0 := by simpa using Nat.lt_one_iff.mp (by simpa using hk)
            rw [hk1, h0]
          · intro k hk
            rw [h0] at hk
            exact absurd hk (Nat.not_lt_zero k)
      | cons w rest2 =>
          obtain ⟨h1, h2, h3⟩ := ih (List.cons_ne_nil w rest2)
          have hlen : (v :: w :: rest2).length = (w :: rest2).length + 1 := rfl
          by_cases hc : v < (w :: rest2).getD (argmaxIdx (w :: rest2)) 0
          · have he : argmaxIdx (v :: w :: rest2) = argmaxIdx (w :: rest2) + 1 := by
              show (if v < (w :: rest2).getD (argmaxIdx (w :: rest2)) 0 then
                  argmaxIdx (w :: rest2) + 1 else 0) = _
              rw [if_pos hc]
            refine ⟨?_, ?_, ?_⟩
            · rw [he, hlen]; exact Nat.succ_lt_succ h1
            · intro k hk
              rw [hlen] at hk
              cases k with
              | zero =>
                  rw [he, List.getD_cons_zero, List.getD_cons_succ]
                  exact le_of_lt hc
              | succ n =>
                  rw [he, List.getD_cons_succ, List.getD_cons_succ]
                  exact h2 n (Nat.lt_of_succ_lt_succ hk)
            · intro k hk
              rw [he] at hk
              cases k with
              | zero =>
                  rw [he, List.getD_cons_zero, List.getD_cons_succ]
                  exact hc
              | succ n =>
                  rw [he, List.getD_cons_succ, List.getD_cons_succ]
                  exact h3 n (Nat.lt_of_succ_lt_succ hk)
          · have he : argmaxIdx (v :: w :: rest2) = 0 := by
              show (if v < (w :: rest2).getD (argmaxIdx (w :: rest2)) 0 then
                  argmaxIdx (w :: rest2) + 1 else 0) = _
              rw [if_neg hc]
            refine ⟨?_, ?_, ?_⟩
            · rw [he, hlen]; exact Nat.succ_pos _
            · intro k hk
              rw [hlen] at hk
              cases k with
              | zero => rw [he]
              | succ n =>
                  rw [he, List.getD_cons_succ, List.getD_cons_zero]
                  exact le_trans (h2 n (Nat.lt_of_succ_lt_succ hk)) (not_lt.mp hc)
            · intro k hk
              rw [he] at hk
              exact absurd hk (Nat.not_lt_zero k)

/-! ## Claim theorems -/

set_option maxRecDepth 4000 in
/-- C1: in the chord classifier, for every non-silent segment that follows an
already-classified segment (previous index `p`), the score of the template
that produced the previous segment's label is multiplied by 1.2 before the
(first-occurrence) argmax template is selected, and the reported confidence
is the unbiased dot product of the segment's normalized mean chroma with the
selected template, clamped to at most 1.0 — not the biased score. Moreover,
in the spec scenario with boundaries `[0, 10, 20]`, a first segment won by
`Cmin`, and a second segment scoring `Cmin` at 0.9 and `G` at 0.85, the
biased score `0.9 * 1.2 = 1.08` keeps the label `Cmin` while the reported
confidence stays at the unbiased 0.9. -/
theorem c1_persistence_bias :
    (∀ (sq : ℚ → ℚ) (templates : List (List Char × List ℚ)) (chroma : List (List ℚ))
        (sr hop b1 b2 p : ℕ) (vec : List ℚ) (nrm : ℚ) (vecN scores biased : List ℚ),
      vec = colMean ((chroma.drop b1).take (b2 - b1)) →
      nrm = sq (sumsq vec) →
      ¬ nrm < 0.05 →
      vecN = vec.map (fun x => x / (nrm + 1e-9)) →
      scores = templates.map (fun t => dotQ vecN t.2) →
      biased = scores.set p (scores.getD p 0 * 1.2) →
      p < templates.length →
      ∃ j, IsFirstMax biased j ∧
        classifyWindow sq templates chroma sr hop b1 b2 (some p) =
          (⟨ftime sr hop b1, ftime sr hop b2, (templates.getD j ([], [])).1,
            min 1 (scores.getD j 0)⟩, some j)) ∧
    segmentChords sqOne scenBank scenChroma 22050 512 [0, 10, 20] =
      [⟨0, 512 / 2205, ['C', 'm', 'i', 'n'], 0.9⟩,
       ⟨512 / 2205, 1024 / 2205, ['C', 'm', 'i', 'n'], 0.9⟩] := by
  constructor
  · intro sq templates chroma sr hop b1 b2 p vec nrm vecN scores biased hv hn hns hvn hs hb hp
    subst hv; subst hn; subst hvn; subst hs; subst hb
    have hlenb : ((templates.map (fun t => dotQ (colMean ((chroma.drop b1).take (b2 - b1)) |>.map
        (fun x => x / (sq (sumsq (colMean ((chroma.drop b1).take (b2 - b1)))) + 1e-9))) t.2)).set p
          (((templates.map (fun t => dotQ (colMean ((chroma.drop b1).take (b2 - b1)) |>.map
        (fun x => x / (sq (sumsq (colMean ((chroma.drop b1).take (b2 - b1)))) + 1e-9))) t.2)).getD p 0) * 1.2)).length
        = templates.length := by
      rw [List.length_set, List.length_map]
    set vecN := (colMean ((chroma.drop b1).take (b2 - b1))).map
      (fun x => x / (sq (sumsq (colMean ((chroma.drop b1).take (b2 - b1)))) + 1e-9)) with hvecN
    set scores := templates.map (fun t => dotQ vecN t.2) with hscores
    set biased := scores.set p (scores.getD p 0 * 1.2) with hbiased
    have hne : biased ≠ [] := by
      intro h
      rw [h] at hlenb
      simp at hlenb
      omega
    have hfm := argmaxIdx_isFirstMax biased hne
    refine ⟨argmaxIdx biased, hfm, ?_⟩
    have hj : argmaxIdx biased < templates.length := by
      have := hfm.1
      rwa [hbiased, List.length_set, hscores, List.length_map] at this
    have hsc : scores.getD (argmaxIdx biased) 0
        = dotQ vecN (templates.getD (argmaxIdx biased) ([], [])).2 := by
      rw [hscores]
      exact getD_map_lt _ _ _ _ _ hj
    rw [hsc]
    show classifyWindow sq templates chroma sr hop b1 b2 (some p) = _
    unfold classifyWindow
    rw [if_neg hns]
  · with_unfolding_all decide

set_option maxRecDepth 4000 in
/-- Witness for C1: the second scenario segment — boundary pair `(10, 20)`
with previous index 0 (`Cmin`) — instantiates the theorem's hypotheses. -/
theorem c1_persistence_bias_witness :
    (0 < scenBank.length) ∧
    (¬ sqOne (sumsq (colMean ((scenChroma.drop 10).take (20 - 10)))) < 0.05) ∧
    (∃ j, IsFirstMax scenBiased j ∧
      classifyWindow sqOne scenBank scenChroma 22050 512 10 20 (some 0) =
        (⟨ftime 22050 512 10, ftime 22050 512 20, (scenBank.getD j ([], [])).1,
          min 1 (scenScores.getD j 0)⟩, some j)) := by
  refine ⟨by with_unfolding_all decide, by with_unfolding_all decide, ?_⟩
  exact c1_persistence_bias.1 sqOne scenBank scenChroma 22050 512 10 20 0 _ _
    scenVecN scenScores scenBiased rfl rfl (by with_unfolding_all decide) rfl rfl rfl
    (by with_unfolding_all decide)

lemma classifyWindow_times (sq : ℚ → ℚ) (templates : List (List Char × List ℚ))
    (chroma : List (List ℚ)) (sr hop b1 b2 : ℕ) (prev : Option ℕ) :
    (classifyWindow sq templates chroma sr hop b1 b2 prev).1.start = ftime sr hop b1 ∧
    (classifyWindow sq templates chroma sr hop b1 b2 prev).1.stop = ftime sr hop b2 := by
  constructor <;> (simp only [classifyWindow]; split_ifs <;> rfl)

lemma segLoop_tiles (sq : ℚ → ℚ) (templates : List (List Char × List ℚ))
    (chroma : List (List ℚ)) (sr hop : ℕ) :
    ∀ (bs : List ℕ) (b : ℕ) (prev : Option ℕ), List.Chain' (· < ·) (b :: bs) → bs ≠ [] →
      (segLoop sq templates chroma sr hop (b :: bs) prev).length = bs.length ∧
      (segLoop sq templates chroma sr hop (b :: bs) prev).head?.map Seg.start
        = some (ftime sr hop b) ∧
      (segLoop sq templates chroma sr hop (b :: bs) prev).getLast?.map Seg.stop
        = some (ftime sr hop (bs.getLastD b)) ∧
      List.Chain' (fun a c => a.stop = c.start)
        (segLoop sq templates chroma sr hop (b :: bs) prev) := by
  intro bs
  induction bs with
  | nil => intro b prev _ hne; exact absurd rfl hne
  | cons b2 rest ih =>
      intro b prev hchain _
      have hlt : b < b2 := (List.chain'_cons.mp hchain).1
      have htl : List.Chain' (· < ·) (b2 :: rest) := (List.chain'_cons.mp hchain).2
      have hnle : ¬ b2 ≤ b := by omega
      have hstep : segLoop sq templates chroma sr hop (b :: b2 :: rest) prev =
          (classifyWindow sq templates chroma sr hop b b2 prev).1 ::
            segLoop sq templates chroma sr hop (b2 :: rest)
              (classifyWindow sq templates chroma sr hop b b2 prev).2 := by
        show (if b2 ≤ b then segLoop sq templates chroma sr hop (b2 :: rest) prev
            else _) = _
        rw [if_neg hnle]
      have htimes := classifyWindow_times sq templates chroma sr hop b b2 prev
      cases rest with
      | nil =>
          have hnil : segLoop sq templates chroma sr hop [b2]
              (classifyWindow sq templates chroma sr hop b b2 prev).2 = [] := rfl
          rw [hstep, hnil]
          refine ⟨rfl, ?_, ?_, ?_⟩
          · simp [htimes.1]
          · simp [htimes.2]
          · exact List.chain'_singleton _
      | cons b3 rest2 =>
          obtain ⟨ihlen, ihhead, ihlast, ihchain⟩ :=
            ih b2 ((classifyWindow sq templates chroma sr hop b b2 prev).2) htl (by simp)
          rw [hstep]
          have htne : segLoop sq templates chroma sr hop (b2 :: b3 :: rest2)
              (classifyWindow sq templates chroma sr hop b b2 prev).2 ≠ [] := by
            intro h; rw [h] at ihlen; simp at ihlen
          obtain ⟨y, ys, hys⟩ := List.exists_cons_of_ne_nil htne
          refine ⟨by simp [ihlen], by simp [htimes.1], ?_, ?_⟩
          · rw [hys, List.getLast?_cons_cons, List.getLastD_cons]
            rw [hys] at ihlast
            exact ihlast
          · rw [List.chain'_cons']
            refine ⟨?_, ihchain⟩
            intro y2 hy2
            have hh : (segLoop sq templates chroma sr hop (b2 :: b3 :: rest2)
                (classifyWindow sq templates chroma sr hop b b2 prev).2).head? = some y2 := hy2
            rw [hh] at ihhead
            simp at ihhead
            rw [htimes.2, ihhead]

/-- C2 (amended): for every strictly increasing boundary list with at least
two entries (all within the chroma frame range, nonempty bank), the
classifier's segments tile exactly: one segment per adjacent boundary pair,
`segments[i].end = segments[i+1].start` for all adjacent pairs, the first
segment starting at the time of the *first boundary* and the last ending at
the time of the *last boundary* — which equal 0 and the analyzed duration
only when the boundary list happens to start at frame 0 and end at the last
frame; as `c2_first_segment_not_zero` shows, the original claim's
`segments[0].start == 0` fails for boundary lists not starting at frame 0. -/
theorem c2_segment_tiling (sq : ℚ → ℚ) (templates : List (List Char × List ℚ))
    (chroma : List (List ℚ)) (sr hop : ℕ) (beats : List ℕ)
    (hmono : List.Chain' (· < ·) beats) (hlen : 2 ≤ beats.length)
    (hrange : ∀ b ∈ beats, b ≤ chroma.length) (htpl : templates ≠ []) :
    (segmentChords sq templates chroma sr hop beats).length = beats.length - 1 ∧
    (segmentChords sq templates chroma sr hop beats).head?.map Seg.start
      = some (ftime sr hop (beats.headD 0)) ∧
    (segmentChords sq templates chroma sr hop beats).getLast?.map Seg.stop
      = some (ftime sr hop (beats.getLastD 0)) ∧
    List.Chain' (fun a c => a.stop = c.start)
      (segmentChords sq templates chroma sr hop beats) := by
  cases beats with
  | nil => simp at hlen
  | cons b bs =>
      cases bs with
      | nil => simp at hlen
      | cons b2 rest =>
          have hun : segmentChords sq templates chroma sr hop (b :: b2 :: rest)
              = segLoop sq templates (medFilt3 chroma) sr hop (b :: b2 :: rest) none := by
            simp only [segmentChords]
            rw [if_neg (by simp)]
          obtain ⟨h1, h2, h3, h4⟩ := segLoop_tiles sq templates (medFilt3 chroma) sr hop
            (b2 :: rest) b none hmono (by simp)
          rw [hun]
          exact ⟨by rw [h1]; rfl, h2, by rw [h3]; rfl, h4⟩

set_option maxRecDepth 2000 in
/-- Counterexample for C2 as stated: with boundary frames `[21, 42]` on a
42-frame all-zero chroma (a beat tracker normally reports a first beat after
frame 0), the single produced segment starts at `21 * 512 / 22050 = 256/525`,
not 0 — so the classifier's output does not cover the duration from 0. -/
theorem c2_first_segment_not_zero :
    segmentChords sqZero zBank zChroma 22050 512 [21, 42]
      = [⟨256 / 525, 512 / 525, NC, 0⟩] ∧
    ((256 : ℚ) / 525) ≠ 0 := by
  constructor
  · with_unfolding_all decide
  · norm_num

/-- Witness for C2 (amended): boundaries `[0, 21, 42]` on the 42-frame zero
chroma discharge every hypothesis. -/
theorem c2_segment_tiling_witness :
    (List.Chain' (· < ·) [0, 21, 42] ∧ 2 ≤ ([0, 21, 42] : List ℕ).length ∧
      (∀ b ∈ ([0, 21, 42] : List ℕ), b ≤ zChroma.length) ∧ zBank ≠ []) ∧
    ((segmentChords sqZero zBank zChroma 22050 512 [0, 21, 42]).length
        = ([0, 21, 42] : List ℕ).length - 1 ∧
      (segmentChords sqZero zBank zChroma 22050 512 [0, 21, 42]).head?.map Seg.start
        = some (ftime 22050 512 (([0, 21, 42] : List ℕ).headD 0)) ∧
      (segmentChords sqZero zBank zChroma 22050 512 [0, 21, 42]).getLast?.map Seg.stop
        = some (ftime 22050 512 (([0, 21, 42] : List ℕ).getLastD 0)) ∧
      List.Chain' (fun a c => a.stop = c.start)
        (segmentChords sqZero zBank zChroma 22050 512 [0, 21, 42])) := by
  refine ⟨⟨by simp [List.chain'_cons], by decide, by decide, by decide⟩, ?_⟩
  exact c2_segment_tiling sqZero zBank zChroma 22050 512 [0, 21, 42]
    (by simp [List.chain'_cons]) (by decide) (by decide) (by decide)

lemma mergeGo_spec : ∀ (l : List Seg) (cur : Seg),
    ∃ h t, mergeGo cur l = h :: t ∧ h.chord = cur.chord ∧
      List.Chain' (fun a b => a.chord ≠ b.chord) (h :: t) := by
  intro l
  induction l with
  | nil => intro cur; exact ⟨cur, [], rfl, rfl, List.chain'_singleton _⟩
  | cons s rest ih =>
      intro cur
      by_cases hc : s.chord = cur.chord
      · obtain ⟨h, t, he, hh, hch⟩ :=
          ih { cur with stop := s.stop, confidence := max cur.confidence s.confidence }
        refine ⟨h, t, ?_, hh, hch⟩
        show (if s.chord = cur.chord then
            mergeGo { cur with stop := s.stop, confidence := max cur.confidence s.confidence } rest
          else cur :: mergeGo s rest) = h :: t
        rw [if_pos hc]
        exact he
      · obtain ⟨h, t, he, hh, hch⟩ := ih s
        refine ⟨cur, mergeGo s rest, ?_, rfl, ?_⟩
        · show (if s.chord = cur.chord then
              mergeGo { cur with stop := s.stop, confidence := max cur.confidence s.confidence } rest
            else cur :: mergeGo s rest) = cur :: mergeGo s rest
          rw [if_neg hc]
        · rw [he]
          exact List.chain'_cons.mpr ⟨fun hx => hc (hx.trans hh).symm, hch⟩

lemma pass2loop_all_long (d : ℚ) : ∀ (pending rev : List Seg),
    (∀ s ∈ pending, d ≤ s.stop - s.start) →
    pass2loop d pending rev = some (rev.reverse ++ pending) := by
  intro pending
  induction pending with
  | nil => intro rev _; simp [pass2loop]
  | cons curr rest ih =>
      intro rev hall
      have h1 : ¬ curr.stop - curr.start < d := by
        have := hall curr (by simp)
        linarith
      show (if curr.stop - curr.start < d then _ else pass2loop d rest (curr :: rev)) = _
      rw [if_neg h1, ih (curr :: rev) (fun s hs => hall s (by simp [hs]))]
      simp

/-- C3 (amended): the smoother's pass 1 guarantees that no two adjacent
segments share a label, and whenever every pass-1-merged segment already
meets the minimum duration the full smoother returns exactly that merged
list — so its output has no adjacent duplicate labels. In general pass 2
does *not* preserve the property: dropping a short segment wedged between
two same-label segments leaves adjacent duplicates
(`c3_adjacent_duplicate_after_pass2`). -/
theorem c3_smoother_no_adjacent_dup (l : List Seg) (d : ℚ)
    (h : ∀ s ∈ mergeConsecutive l, d ≤ s.stop - s.start) :
    smoothChords l d = some (mergeConsecutive l) ∧
    List.Chain' (fun a b => a.chord ≠ b.chord) (mergeConsecutive l) := by
  have hchain : List.Chain' (fun a b => a.chord ≠ b.chord) (mergeConsecutive l) := by
    cases l with
    | nil => simp [mergeConsecutive]
    | cons c rest =>
        obtain ⟨h1, t1, he, _, hch⟩ := mergeGo_spec rest c
        show List.Chain' _ (mergeGo c rest)
        rw [he]
        exact hch
  refine ⟨?_, hchain⟩
  cases l with
  | nil => rfl
  | cons c rest =>
      show (if (mergeConsecutive (c :: rest)).length < 2 then
          some (mergeConsecutive (c :: rest))
        else pass2start d (mergeConsecutive (c :: rest))) = _
      by_cases hlen : (mergeConsecutive (c :: rest)).length < 2
      · rw [if_pos hlen]
      · rw [if_neg hlen]
        obtain ⟨h1, t1, he, _, _⟩ := mergeGo_spec rest c
        have hm : mergeConsecutive (c :: rest) = h1 :: t1 := he
        rw [hm]
        have hlong := h
        rw [hm] at hlong
        have hn1 : ¬ h1.stop - h1.start < d := by
          have := hlong h1 (by simp)
          linarith
        show (if h1.stop - h1.start < d then _ else pass2loop d t1 [h1]) = _
        rw [if_neg hn1, pass2loop_all_long d t1 [h1] (fun s hs => hlong s (by simp [hs]))]
        simp

/-- Counterexample for C3 as stated: a 0.1 s `B` segment wedged between two
`A` segments is absorbed by pass 2, leaving two adjacent `A` segments in the
smoother's output. -/
theorem c3_adjacent_duplicate_after_pass2 :
    smoothChords [⟨0, 1, ['A'], 1⟩, ⟨1, 1.1, ['B'], 1⟩, ⟨1.1, 2.1, ['A'], 1⟩] 0.5
      = some [⟨0, 1.1, ['A'], 1⟩, ⟨1.1, 2.1, ['A'], 1⟩] ∧
    ¬ List.Chain' (fun a b => a.chord ≠ b.chord)
        [(⟨0, 1.1, ['A'], 1⟩ : Seg), ⟨1.1, 2.1, ['A'], 1⟩] := by
  constructor
  · with_unfolding_all decide
  · intro hch
    exact (List.chain'_cons.mp hch).1 rfl

/-- Witness for C3 (amended): two long distinct-label segments. -/
theorem c3_smoother_no_adjacent_dup_witness :
    (∀ s ∈ mergeConsecutive [⟨0, 1, ['A'], 1⟩, ⟨1, 2, ['B'], 1⟩], (0.5 : ℚ) ≤ s.stop - s.start) ∧
    (smoothChords [⟨0, 1, ['A'], 1⟩, ⟨1, 2, ['B'], 1⟩] 0.5
        = some (mergeConsecutive [⟨0, 1, ['A'], 1⟩, ⟨1, 2, ['B'], 1⟩]) ∧
      List.Chain' (fun a b => a.chord ≠ b.chord)
        (mergeConsecutive [⟨0, 1, ['A'], 1⟩, ⟨1, 2, ['B'], 1⟩])) := by
  refine ⟨by with_unfolding_all decide, ?_⟩
  exact c3_smoother_no_adjacent_dup [⟨0, 1, ['A'], 1⟩, ⟨1, 2, ['B'], 1⟩] 0.5
    (by with_unfolding_all decide)

/-- C4: the claim's safety clause fails — on two consecutive pass-1 segments
both shorter than the threshold, the pass-2 absorb step executes `final[-1]`
with `final` still empty and raises `IndexError` (modelled as `none`): after
the short first segment donates its start to the second, the now-short last
segment tries to merge into a previous kept segment that does not exist. -/
theorem c4_smoother_crash_on_short_prefix :
    smoothChords [⟨0, 0.1, ['A'], 1⟩, ⟨0.1, 0.2, ['B'], 1⟩] 0.5 = none := by
  with_unfolding_all decide

set_option maxRecDepth 2000 in
/-- C5 (amended): a zero-length decoded signal returns the fixed default
`{"tempo": 0, "key": "C", "scale": "major", "chords": []}` — with no `meter`
or `simpleChords` keys — for every collaborator behaviour; and an all-zero
(but nonempty) waveform does not raise and returns tempo 0, key C, major,
but its chord lists are *not* empty: the silent windows are labelled
`"N.C."` and merged into one full-span segment
(`c5_allzero_chords_nonempty` refutes the claimed `chords == []`). -/
theorem c5_silence_handling :
    (∀ M : Collab, analyzeFile M [] = some zeroResult) ∧
    analyzeFile silentCollab ySilent =
      some ⟨0, some 4, ['C'], ['m', 'a', 'j', 'o', 'r'], [ncSilentSeg], some [ncSilentSeg]⟩ := by
  constructor
  · intro M
    rfl
  · with_unfolding_all decide

set_option maxRecDepth 2000 in
/-- Counterexample for C5 as stated: the all-zero waveform yields a
nonempty chord list (one `"N.C."` segment), not `chords == []`. -/
theorem c5_allzero_chords_nonempty :
    (analyzeFile silentCollab ySilent).map AResult.chords = some [ncSilentSeg] ∧
    ([ncSilentSeg] : List Seg) ≠ [] := by
  constructor
  · with_unfolding_all decide
  · intro h
    exact List.noConfusion h

/-! ## C6: fast-path tempo range normalization -/

theorem doubleUp_lb (t : ℚ) : 0 < t → 70 ≤ doubleUp t := by
  induction t using doubleUp.induct with
  | case1 t h ih =>
      intro _
      rw [doubleUp, dif_pos h]
      exact ih (by linarith [h.1])
  | case2 t h =>
      intro hp
      rw [doubleUp, dif_neg h]
      rcases not_and_or.mp h with h1 | h2
      · exact absurd hp h1
      · linarith [not_lt.mp h2]

theorem halveDown_ub (t : ℚ) : halveDown t ≤ 190 := by
  induction t using halveDown.induct with
  | case1 t h ih =>
      rw [halveDown, dif_pos h]
      exact ih
  | case2 t h =>
      rw [halveDown, dif_neg h]
      exact not_lt.mp h

theorem halveDown_lb (t : ℚ) : 70 ≤ t → 70 ≤ halveDown t := by
  induction t using halveDown.induct with
  | case1 t h ih =>
      intro _
      rw [halveDown, dif_pos h]
      exact ih (by linarith)
  | case2 t h =>
      intro hl
      rw [halveDown, dif_neg h]
      exact hl

theorem roundHE_ge (x : ℚ) (n : ℤ) (h : (n : ℚ) ≤ x) : n ≤ roundHalfEven x := by
  have hf : n ≤ ⌊x⌋ := Int.le_floor.mpr h
  simp only [roundHalfEven]
  split_ifs <;> omega

theorem roundHE_le (x : ℚ) (n : ℤ) (hx : x ≤ (n : ℚ)) : roundHalfEven x ≤ n := by
  have hf : ⌊x⌋ ≤ n := by
    have h1 : ⌊x⌋ ≤ ⌊(n : ℚ)⌋ := Int.floor_le_floor hx
    simpa using h1
  rcases lt_or_eq_of_le hf with hlt | heq
  · simp only [roundHalfEven]
    split_ifs <;> omega
  · have hr : x - (⌊x⌋ : ℚ) < 1 / 2 := by
      rw [heq]
      linarith
    simp only [roundHalfEven]
    split_ifs
    exact hf

/-- C6: for every strictly positive raw tempo, the double-below-70 /
halve-above-190 loops terminate and the rounded result lies in the 70–190
band; the concrete estimate 210 bpm is halved once and returned as 105. -/
theorem c6_tempo_normalization :
    (∀ t : ℚ, 0 < t → 70 ≤ normalizeTempo t ∧ normalizeTempo t ≤ 190) ∧
    normalizeTempo 210 = 105 := by
  constructor
  · intro t ht
    have h1 : 70 ≤ doubleUp t := doubleUp_lb t ht
    have h2 : halveDown (doubleUp t) ≤ 190 := halveDown_ub _
    have h3 : 70 ≤ halveDown (doubleUp t) := halveDown_lb _ h1
    exact ⟨roundHE_ge _ 70 (by exact_mod_cast h3),
           roundHE_le _ 190 (by exact_mod_cast h2)⟩
  · have hd : doubleUp 210 = 210 := by
      rw [doubleUp, dif_neg]
      norm_num
    have hh : halveDown (210 : ℚ) = 105 := by
      rw [halveDown, dif_pos (by norm_num : (190 : ℚ) < 210)]
      norm_num
      rw [halveDown, dif_neg (by norm_num : ¬ (190 : ℚ) < 105)]
    rw [normalizeTempo, hd, hh]
    simp only [roundHalfEven]
    norm_num

/-- Witness for C6 at the raw tempo 37 bpm. -/
theorem c6_tempo_normalization_witness :
    (0 : ℚ) < 37 ∧ (70 ≤ normalizeTempo 37 ∧ normalizeTempo 37 ≤ 190) :=
  ⟨by norm_num, c6_tempo_normalization.1 37 (by norm_num)⟩

/-! ## C7: key estimation -/

lemma getD_mem_of_lt {α : Type} (l : List α) (n : ℕ) (d : α) (h : n < l.length) :
    l.getD n d ∈ l := by
  induction l generalizing n with
  | nil => simp at h
  | cons a tl ih =>
      cases n with
      | zero => exact List.mem_cons_self a tl
      | succ m =>
          exact List.mem_cons_of_mem a (ih m (Nat.lt_of_succ_lt_succ (by simpa using h)))

lemma zipWith_nonneg (f : ℚ → ℚ → ℚ) (hf : ∀ x y, 0 ≤ x → 0 ≤ y → 0 ≤ f x y) :
    ∀ (a b : List ℚ), (∀ x ∈ a, 0 ≤ x) → (∀ x ∈ b, 0 ≤ x) →
      ∀ z ∈ List.zipWith f a b, 0 ≤ z := by
  intro a
  induction a with
  | nil => intro b _ _ z hz; simp at hz
  | cons x xs ih =>
      intro b ha hb z hz
      cases b with
      | nil => simp at hz
      | cons y ys =>
          simp only [List.zipWith_cons_cons] at hz
          rcases List.mem_cons.mp hz with h | h
          · rw [h]
            exact hf x y (ha x (List.mem_cons_self x xs)) (hb y (List.mem_cons_self y ys))
          · exact ih ys (fun u hu => ha u (List.mem_cons_of_mem x hu))
              (fun u hu => hb u (List.mem_cons_of_mem y hu)) z h

lemma dotQ_nonneg (a b : List ℚ) (ha : ∀ x ∈ a, 0 ≤ x) (hb : ∀ x ∈ b, 0 ≤ x) :
    0 ≤ dotQ a b := by
  refine List.sum_nonneg ?_
  intro z hz
  exact zipWith_nonneg (· * ·) (fun x y hx hy => mul_nonneg hx hy) a b ha hb z hz

lemma colSum_nonneg (cols : List (List ℚ)) (h : ∀ col ∈ cols, ∀ x ∈ col, 0 ≤ x) :
    ∀ x ∈ colSum cols, 0 ≤ x := by
  have hgen : ∀ (cs : List (List ℚ)) (acc : List ℚ),
      (∀ col ∈ cs, ∀ x ∈ col, 0 ≤ x) → (∀ x ∈ acc, 0 ≤ x) →
      ∀ x ∈ cs.foldl (fun a c => List.zipWith (· + ·) a c) acc, 0 ≤ x := by
    intro cs
    induction cs with
    | nil => intro acc _ hacc x hx; exact hacc x hx
    | cons c cs2 ih =>
        intro acc hcs hacc x hx
        simp only [List.foldl_cons] at hx
        exact ih _ (fun col hcol => hcs col (List.mem_cons_of_mem c hcol))
          (zipWith_nonneg _ (fun u v hu hv => add_nonneg hu hv) acc c hacc
            (hcs c (List.mem_cons_self c cs2))) x hx
  intro x hx
  exact hgen cols (List.replicate 12 0) h
    (fun y hy => le_of_eq (List.eq_of_mem_replicate hy).symm) x hx

lemma colMean_nonneg (cols : List (List ℚ)) (h : ∀ col ∈ cols, ∀ x ∈ col, 0 ≤ x) :
    ∀ x ∈ colMean cols, 0 ≤ x := by
  intro x hx
  simp only [colMean, List.mem_map] at hx
  obtain ⟨y, hy, rfl⟩ := hx
  exact div_nonneg (colSum_nonneg cols h y hy) (Nat.cast_nonneg _)

lemma majProfile_nonneg : ∀ x ∈ majProfile, 0 ≤ x := by
  intro x hx
  fin_cases hx <;> norm_num

lemma minProfile_nonneg : ∀ x ∈ minProfile, 0 ≤ x := by
  intro x hx
  fin_cases hx <;> norm_num

lemma rollP_nonneg (p : List ℚ) (hp : ∀ x ∈ p, 0 ≤ x) (t : ℕ) :
    ∀ x ∈ rollP p t, 0 ≤ x := by
  intro x hx
  simp only [rollP, List.mem_map] at hx
  obtain ⟨i, _, rfl⟩ := hx
  by_cases hlt : (i + 12 - t % 12) % 12 < p.length
  · exact hp _ (getD_mem_of_lt p _ 0 hlt)
  · rw [List.getD_eq_default _ _ (not_lt.mp hlt)]

lemma keyCands_score_nonneg (m : List ℚ) (hm : ∀ x ∈ m, 0 ≤ x) :
    ∀ p ∈ keyCands m, 0 ≤ p.2 := by
  intro p hp
  simp only [keyCands, List.mem_flatMap, List.mem_range] at hp
  obtain ⟨t, ht, hmem⟩ := hp
  rcases List.mem_cons.mp hmem with h | h
  · rw [h]
    exact dotQ_nonneg m _ hm (rollP_nonneg majProfile majProfile_nonneg t)
  · rcases List.mem_cons.mp h with h2 | h2
    · rw [h2]
      exact dotQ_nonneg m _ hm (rollP_nonneg minProfile minProfile_nonneg t)
    · simp at h2

lemma keyCands_length (m : List ℚ) : (keyCands m).length = 24 := rfl

lemma keyFold_spec (l : List ((List Char × List Char) × ℚ)) :
    ∀ b0 : ℚ, ∀ c0 : List Char × List Char,
      ((∀ p ∈ l, p.2 ≤ b0) ∧ keyFold l (b0, c0) = (b0, c0)) ∨
      (∃ j, IsFirstMax (l.map Prod.snd) j ∧ b0 < (l.map Prod.snd).getD j 0 ∧
        keyFold l (b0, c0) = ((l.map Prod.snd).getD j 0, (l.map Prod.fst).getD j ([], []))) := by
  induction l with
  | nil =>
      intro b0 c0
      left
      exact ⟨by simp, rfl⟩
  | cons p rest ih =>
      intro b0 c0
      have hstep : keyFold (p :: rest) (b0, c0)
          = keyFold rest (if b0 < p.2 then (p.2, p.1) else (b0, c0)) := rfl
      by_cases hc : b0 < p.2
      · rw [hstep, if_pos hc]
        rcases ih p.2 p.1 with ⟨hall, heq⟩ | ⟨j, ⟨hjl, hmax, hstrict⟩, hgt, heq⟩
        · right
          refine ⟨0, ⟨by simp, ?_, ?_⟩, ?_, ?_⟩
          · intro k hk
            cases k with
            | zero => exact le_refl _
            | succ n =>
                have hn : n < rest.length := by
                  simp only [List.map_cons, List.length_cons, List.length_map] at hk
                  exact Nat.lt_of_succ_lt_succ hk
                simp only [List.map_cons, List.getD_cons_succ, List.getD_cons_zero]
                rw [getD_map_lt Prod.snd rest n 0 (([], []), 0) hn]
                exact hall _ (getD_mem_of_lt rest n (([], []), 0) hn)
          · intro k hk
            exact absurd hk (Nat.not_lt_zero k)
          · simpa using hc
          · rw [heq]
            simp
        · right
          refine ⟨j + 1, ⟨?_, ?_, ?_⟩, ?_, ?_⟩
          · simp only [List.map_cons, List.length_cons]
            exact Nat.succ_lt_succ hjl
          · intro k hk
            cases k with
            | zero =>
                simp only [List.map_cons, List.getD_cons_zero, List.getD_cons_succ]
                exact le_of_lt hgt
            | succ n =>
                simp only [List.map_cons, List.getD_cons_succ]
                refine hmax n ?_
                simp only [List.map_cons, List.length_cons] at hk
                exact Nat.lt_of_succ_lt_succ hk
          · intro k hk
            cases k with
            | zero =>
                simp only [List.map_cons, List.getD_cons_zero, List.getD_cons_succ]
                exact hgt
            | succ n =>
                simp only [List.map_cons, List.getD_cons_succ]
                exact hstrict n (Nat.lt_of_succ_lt_succ hk)
          · simp only [List.map_cons, List.getD_cons_succ]
            exact lt_trans hc hgt
          · rw [heq]
            simp only [List.map_cons, List.getD_cons_succ]
      · rw [hstep, if_neg hc]
        rcases ih b0 c0 with ⟨hall, heq⟩ | ⟨j, ⟨hjl, hmax, hstrict⟩, hgt, heq⟩
        · left
          refine ⟨?_, heq⟩
          intro q hq
          rcases List.mem_cons.mp hq with h | h
          · rw [h]
            exact not_lt.mp hc
          · exact hall q h
        · right
          refine ⟨j + 1, ⟨?_, ?_, ?_⟩, ?_, ?_⟩
          · simp only [List.map_cons, List.length_cons]
            exact Nat.succ_lt_succ hjl
          · intro k hk
            cases k with
            | zero =>
                simp only [List.map_cons, List.getD_cons_zero, List.getD_cons_succ]
                exact le_of_lt (lt_of_le_of_lt (not_lt.mp hc) hgt)
            | succ n =>
                simp only [List.map_cons, List.getD_cons_succ]
                refine hmax n ?_
                simp only [List.map_cons, List.length_cons] at hk
                exact Nat.lt_of_succ_lt_succ hk
          · intro k hk
            cases k with
            | zero =>
                simp only [List.map_cons, List.getD_cons_zero, List.getD_cons_succ]
                exact lt_of_le_of_lt (not_lt.mp hc) hgt
            | succ n =>
                simp only [List.map_cons, List.getD_cons_succ]
                exact hstrict n (Nat.lt_of_succ_lt_succ hk)
          · simp only [List.map_cons, List.getD_cons_succ]
            exact hgt
          · rw [heq]
            simp only [List.map_cons, List.getD_cons_succ]

/-- C7: key estimation is a deterministic function of the chroma columns:
the zero-sum mean chroma defaults to `("C", "major")`; otherwise the result
is the first-found maximum of the strict-greater scan over the 24 candidates
in source iteration order (tonic 0..11, major before minor, as listed by
`keyCands`). The nonnegativity hypothesis reflects that chroma magnitudes
are nonnegative, which makes every candidate beat the `-1e9` sentinel. -/
theorem c7_key_estimation (chroma : List (List ℚ))
    (hnn : ∀ col ∈ chroma, ∀ x ∈ col, 0 ≤ x) :
    (keyCands (colMean chroma)).length = 24 ∧
    ((colMean chroma).sum = 0 →
      estimateKey chroma = (['C'], ['m', 'a', 'j', 'o', 'r'])) ∧
    ((colMean chroma).sum ≠ 0 →
      ∃ j, IsFirstMax ((keyCands (colMean chroma)).map Prod.snd) j ∧
        estimateKey chroma
          = ((keyCands (colMean chroma)).map Prod.fst).getD j ([], [])) := by
  refine ⟨rfl, fun h0 => ?_, fun hne => ?_⟩
  · simp only [estimateKey]
    rw [if_pos h0]
  · simp only [estimateKey]
    rw [if_neg hne]
    have hm : ∀ x ∈ colMean chroma, 0 ≤ x := colMean_nonneg chroma hnn
    have hsc : ∀ p ∈ keyCands (colMean chroma), 0 ≤ p.2 :=
      keyCands_score_nonneg (colMean chroma) hm
    rcases keyFold_spec (keyCands (colMean chroma)) (-1e9) (['C'], ['m', 'a', 'j', 'o', 'r'])
      with ⟨hall, _⟩ | ⟨j, hfm, _, heq⟩
    · exfalso
      have hlen : 0 < (keyCands (colMean chroma)).length := by
        rw [keyCands_length]
        norm_num
      have hmem : (keyCands (colMean chroma)).getD 0 (([], []), 0)
          ∈ keyCands (colMean chroma) := getD_mem_of_lt _ 0 _ hlen
      have hcontra : (0 : ℚ) ≤ -1e9 := le_trans (hsc _ hmem) (hall _ hmem)
      norm_num at hcontra
    · exact ⟨j, hfm, by rw [heq]⟩

/-- Witness for C7 on a one-column chroma emphasizing pitch class C. -/
theorem c7_key_estimation_witness :
    (∀ col ∈ ([[(1 : ℚ), 0, 0, 0, 0, 0, 0, 0, 0, 0, 0, 0]] : List (List ℚ)),
      ∀ x ∈ col, 0 ≤ x) ∧
    (colMean [[(1 : ℚ), 0, 0, 0, 0, 0, 0, 0, 0, 0, 0, 0]]).sum ≠ 0 ∧
    (∃ j, IsFirstMax
        ((keyCands (colMean [[(1 : ℚ), 0, 0, 0, 0, 0, 0, 0, 0, 0, 0, 0]])).map Prod.snd) j ∧
      estimateKey [[(1 : ℚ), 0, 0, 0, 0, 0, 0, 0, 0, 0, 0, 0]]
        = ((keyCands (colMean [[(1 : ℚ), 0, 0, 0, 0, 0, 0, 0, 0, 0, 0, 0]])).map
            Prod.fst).getD j ([], [])) :=
  ⟨by with_unfolding_all decide,
   by with_unfolding_all decide,
   (c7_key_estimation [[(1 : ℚ), 0, 0, 0, 0, 0, 0, 0, 0, 0, 0, 0]]
      (by with_unfolding_all decide)).2.2 (by with_unfolding_all decide)⟩

/-! ## C8: simplifier idempotence -/

lemma simpCoreA_cases (root suf : List Char) :
    ∃ X ∈ canonsA, simpCoreA root suf = root ++ X := by
  unfold simpCoreA
  split_ifs <;>
    first
      | exact ⟨['m', 'i', 'n', '7'], by simp [canonsA], rfl⟩
      | exact ⟨['m', 'i', 'n'], by simp [canonsA], rfl⟩
      | exact ⟨['d', 'i', 'm'], by simp [canonsA], rfl⟩
      | exact ⟨['a', 'u', 'g'], by simp [canonsA], rfl⟩
      | exact ⟨['s', 'u', 's', '2'], by simp [canonsA], rfl⟩
      | exact ⟨['s', 'u', 's', '4'], by simp [canonsA], rfl⟩
      | exact ⟨['7'], by simp [canonsA], rfl⟩
      | exact ⟨[], by simp [canonsA], (List.append_nil root).symm⟩

lemma simpCoreM_cases (root suf : List Char) :
    ∃ X ∈ canonsM, simpCoreM root suf = root ++ X := by
  unfold simpCoreM
  split_ifs <;>
    first
      | exact ⟨['d', 'i', 'm'], by simp [canonsM], rfl⟩
      | exact ⟨['a', 'u', 'g'], by simp [canonsM], rfl⟩
      | exact ⟨['m'], by simp [canonsM], rfl⟩
      | exact ⟨[], by simp [canonsM], (List.append_nil root).symm⟩

lemma rootSplitA_shape (c : Char) (rest : List Char) :
    (rootSplitA (c :: rest)).1 = [c] ∨ (rootSplitA (c :: rest)).1 = [c, '#'] := by
  cases rest with
  | nil => left; rfl
  | cons x tl =>
      by_cases hx : x = '#'
      · right
        subst hx
        simp [rootSplitA]
      · left
        simp [rootSplitA, if_neg hx]

lemma rootSplitM_shape (c : Char) (rest : List Char) :
    (rootSplitM (c :: rest)).1 = [c] ∨
      ∃ x, (x = '#' ∨ x = 'b') ∧ (rootSplitM (c :: rest)).1 = [c, x] := by
  cases rest with
  | nil => left; rfl
  | cons x tl =>
      by_cases hx : x = '#' ∨ x = 'b'
      · right
        exact ⟨x, hx, by simp [rootSplitM, if_pos hx]⟩
      · left
        simp [rootSplitM, if_neg hx]

lemma simplifyA_fix1 (c : Char) (X : List Char) (hX : X ∈ canonsA) :
    simplifyA ([c] ++ X) = some ([c] ++ X) := by
  fin_cases hX <;>
    simp +decide [simplifyA, NC, rootSplitA, simpCoreA, begW, hasSub]

lemma simplifyA_fix2 (c : Char) (X : List Char) (hX : X ∈ canonsA) :
    simplifyA ([c, '#'] ++ X) = some ([c, '#'] ++ X) := by
  fin_cases hX <;>
    simp +decide [simplifyA, NC, rootSplitA, simpCoreA, begW, hasSub]

lemma simplifyM_fix1 (c : Char) (X : List Char) (hX : X ∈ canonsM)
    (hne : [c] ++ X ≠ ['N']) :
    simplifyM ([c] ++ X) = some ([c] ++ X) := by
  fin_cases hX
  · simp +decide [simplifyM, NC, rootSplitM, simpCoreM, begW, hasSub]
  · simp +decide [simplifyM, NC, rootSplitM, simpCoreM, begW, hasSub]
  · simp +decide [simplifyM, NC, rootSplitM, simpCoreM, begW, hasSub]
  · have hc : ¬ (c = 'N') := by
      intro h
      exact hne (by rw [h]; rfl)
    simp +decide [simplifyM, NC, rootSplitM, simpCoreM, begW, hasSub, hc]

lemma simplifyM_fix2 (c x : Char) (hx : x = '#' ∨ x = 'b') (X : List Char)
    (hX : X ∈ canonsM) :
    simplifyM ([c, x] ++ X) = some ([c, x] ++ X) := by
  rcases hx with rfl | rfl <;> fin_cases hX <;>
    simp +decide [simplifyM, NC, rootSplitM, simpCoreM, begW, hasSub]

/-- C8 (amended): the precise-path simplifier `analysis._simplify_chord` is
idempotent on every label (with the `IndexError` on the empty string modelled
as `none`, propagated by `bind`); the fast-path simplifier
`chord_madmom._simplify_chord` is idempotent exactly on inputs it does not
send to the bare label `"N"` — `c8_madmom_not_idempotent` shows `"Nx"`
breaks unrestricted idempotence. -/
theorem c8_simplifier_idempotence :
    (∀ s : List Char, (simplifyA s).bind simplifyA = simplifyA s) ∧
    (∀ s : List Char, simplifyM s ≠ some ['N'] →
      (simplifyM s).bind simplifyM = simplifyM s) := by
  constructor
  · intro s
    by_cases hnc : s = NC
    · subst hnc
      rfl
    · cases s with
      | nil => rfl
      | cons c rest =>
          have heq : simplifyA (c :: rest)
              = some (simpCoreA (rootSplitA (c :: rest)).1 (rootSplitA (c :: rest)).2) := by
            simp only [simplifyA, if_neg hnc]
          rw [heq, Option.some_bind]
          obtain ⟨X, hX, hout⟩ := simpCoreA_cases (rootSplitA (c :: rest)).1
            (rootSplitA (c :: rest)).2
          rw [hout]
          rcases rootSplitA_shape c rest with h1 | h1 <;> rw [h1]
          · exact simplifyA_fix1 c X hX
          · exact simplifyA_fix2 c X hX
  · intro s hs
    by_cases hn : s = ['N'] ∨ s = NC
    · have hv : simplifyM s = some NC := by
        simp only [simplifyM, if_pos hn]
      rw [hv, Option.some_bind]
      rfl
    · cases s with
      | nil => rfl
      | cons c rest =>
          have heq : simplifyM (c :: rest)
              = some (simpCoreM (rootSplitM (c :: rest)).1 (rootSplitM (c :: rest)).2) := by
            simp only [simplifyM, if_neg hn]
          rw [heq, Option.some_bind]
          obtain ⟨X, hX, hout⟩ := simpCoreM_cases (rootSplitM (c :: rest)).1
            (rootSplitM (c :: rest)).2
          rw [hout]
          rcases rootSplitM_shape c rest with h1 | ⟨x, hx, h1⟩ <;> rw [h1]
          · refine simplifyM_fix1 c X hX ?_
            intro hbad
            apply hs
            rw [heq, hout, h1, hbad]
          · exact simplifyM_fix2 c x hx X hX

/-- Counterexample for C8 as stated: the fast-path simplifier sends `"Nx"`
to `"N"` in one step but to `"N.C."` in two, so it is not idempotent. -/
theorem c8_madmom_not_idempotent :
    simplifyM ['N', 'x'] = some ['N'] ∧
    (simplifyM ['N', 'x']).bind simplifyM = some NC ∧
    some NC ≠ some (['N'] : List Char) := by
  refine ⟨rfl, rfl, ?_⟩
  intro h
  have h2 : NC = ['N'] := Option.some.inj h
  exact absurd h2 (by decide)

/-- Witness for C8 at the fast-path label `"Am"`. -/
theorem c8_simplifier_idempotence_witness :
    simplifyM ['A', 'm'] ≠ some ['N'] ∧
    (simplifyM ['A', 'm']).bind simplifyM = simplifyM ['A', 'm'] :=
  ⟨by decide, c8_simplifier_idempotence.2 ['A', 'm'] (by decide)⟩

/-! ## C9: template banks -/

lemma sumsq_eq (v : List ℚ) : sumsq v = (v.map (fun x => x ^ 2)).sum := by
  unfold sumsq dotQ
  induction v with
  | nil => rfl
  | cons x xs ih =>
      simp only [List.zipWith_cons_cons, List.map_cons, List.sum_cons]
      rw [ih, pow_two]

lemma sum_sq_cast (v : List ℚ) :
    (((v.map (fun x : ℚ => x ^ 2)).sum : ℚ) : ℝ)
      = (v.map (fun x : ℚ => ((x : ℝ)) ^ 2)).sum := by
  induction v with
  | nil => simp
  | cons x xs ih =>
      simp only [List.map_cons, List.sum_cons, Rat.cast_add, Rat.cast_pow]
      rw [ih]

lemma sum_div_sq (v : List ℚ) (c : ℝ) :
    (v.map (fun x : ℚ => ((x : ℝ) / c) ^ 2)).sum
      = (v.map (fun x : ℚ => ((x : ℝ)) ^ 2)).sum / c ^ 2 := by
  induction v with
  | nil => simp
  | cons x xs ih =>
      simp only [List.map_cons, List.sum_cons, ih]
      ring

lemma normScaleBound (v : List ℚ) (h1 : 1 ≤ sumsq v) :
    1 - 2e-9
        < (v.map (fun x : ℚ => ((x : ℝ) / (Real.sqrt ((sumsq v : ℝ)) + 1e-9)) ^ 2)).sum ∧
      (v.map (fun x : ℚ => ((x : ℝ) / (Real.sqrt ((sumsq v : ℝ)) + 1e-9)) ^ 2)).sum < 1 := by
  have hS1 : (1 : ℝ) ≤ ((sumsq v : ℝ)) := by exact_mod_cast h1
  have hS0 : (0 : ℝ) ≤ ((sumsq v : ℝ)) := le_trans zero_le_one hS1
  have hr1 : 1 ≤ Real.sqrt ((sumsq v : ℝ)) := by
    have h := Real.sqrt_le_sqrt hS1
    rwa [Real.sqrt_one] at h
  have hsq : Real.sqrt ((sumsq v : ℝ)) ^ 2 = ((sumsq v : ℝ)) := Real.sq_sqrt hS0
  have hvS : (v.map (fun x : ℚ => ((x : ℝ)) ^ 2)).sum = ((sumsq v : ℝ)) := by
    rw [← sum_sq_cast]
    exact_mod_cast congrArg (fun q : ℚ => ((q : ℚ) : ℝ)) (sumsq_eq v).symm
  have hsum : (v.map (fun x : ℚ => ((x : ℝ) / (Real.sqrt ((sumsq v : ℝ)) + 1e-9)) ^ 2)).sum
      = ((sumsq v : ℝ)) / (Real.sqrt ((sumsq v : ℝ)) + 1e-9) ^ 2 := by
    rw [sum_div_sq v (Real.sqrt ((sumsq v : ℝ)) + 1e-9), hvS]
  rw [hsum]
  constructor
  · rw [lt_div_iff (by positivity)]
    nlinarith [hsq, hr1, mul_nonneg (sub_nonneg.mpr hr1)
      (le_trans zero_le_one hr1)]
  · rw [div_lt_one (by positivity)]
    nlinarith [hsq, hr1]

set_option maxRecDepth 4000 in
/-- Counterexample for C9 as stated: the websocket bank has 12 × 9 = 108
entries, not 132 — `websocket_chords.py` builds only nine qualities
(no `6`, no `m6`). -/
theorem c9_websocket_bank_size :
    websocketBank.length = 108 ∧ websocketBank.length ≠ 132 := by
  have h108 : websocketBank.length = 108 := rfl
  refine ⟨h108, ?_⟩
  rw [h108]
  decide

set_option maxRecDepth 4000 in
/-- C9 (amended): the `analysis.py` bank has 132 = 12 × 11 entries and the
`websocket_chords.py` bank 108 = 12 × 9; labels are pairwise distinct in each
bank (so no two entries share a (root, quality) pair) and are the
deterministic function `chordLabel` of root and quality, with the bare root
name for `maj`; and every raw vector has squared norm ≥ 1, so after the
`v / (norm(v) + 1e-9)` normalization its real squared L2 norm lies strictly
between `1 - 2e-9` and 1 — close to, but never exactly, unit norm. -/
theorem c9_template_banks :
    analysisBank.length = 132 ∧
    websocketBank.length = 108 ∧
    (analysisBank.map Prod.fst).Nodup ∧
    (websocketBank.map Prod.fst).Nodup ∧
    (∀ r, chordLabel r ['m', 'a', 'j'] = pcNames.getD r []) ∧
    (∀ p ∈ analysisBank, 1 ≤ sumsq p.2 ∧
      (1 - 2e-9
          < (p.2.map (fun x : ℚ =>
              ((x : ℝ) / (Real.sqrt ((sumsq p.2 : ℝ)) + 1e-9)) ^ 2)).sum ∧
        (p.2.map (fun x : ℚ =>
            ((x : ℝ) / (Real.sqrt ((sumsq p.2 : ℝ)) + 1e-9)) ^ 2)).sum < 1)) ∧
    (∀ p ∈ websocketBank, 1 ≤ sumsq p.2 ∧
      (1 - 2e-9
          < (p.2.map (fun x : ℚ =>
              ((x : ℝ) / (Real.sqrt ((sumsq p.2 : ℝ)) + 1e-9)) ^ 2)).sum ∧
        (p.2.map (fun x : ℚ =>
            ((x : ℝ) / (Real.sqrt ((sumsq p.2 : ℝ)) + 1e-9)) ^ 2)).sum < 1)) := by
  have hA : ∀ p ∈ analysisBank, 1 ≤ sumsq p.2 := by with_unfolding_all decide
  have hW : ∀ p ∈ websocketBank, 1 ≤ sumsq p.2 := by with_unfolding_all decide
  refine ⟨rfl, rfl, by decide, by decide, ?_, ?_, ?_⟩
  · intro r
    simp [chordLabel]
  · intro p hp
    exact ⟨hA p hp, normScaleBound p.2 (hA p hp)⟩
  · intro p hp
    exact ⟨hW p hp, normScaleBound p.2 (hW p hp)⟩

set_option maxRecDepth 4000 in
/-- Witness for C9 at the first bank entry, the `C` major template. -/
theorem c9_template_banks_witness :
    ((['C'], mkVecA 0 [0, 4, 7]) ∈ analysisBank) ∧
    (1 ≤ sumsq (mkVecA 0 [0, 4, 7]) ∧
      (1 - 2e-9
          < ((mkVecA 0 [0, 4, 7]).map (fun x : ℚ =>
              ((x : ℝ) / (Real.sqrt ((sumsq (mkVecA 0 [0, 4, 7]) : ℝ)) + 1e-9)) ^ 2)).sum ∧
        ((mkVecA 0 [0, 4, 7]).map (fun x : ℚ =>
            ((x : ℝ) / (Real.sqrt ((sumsq (mkVecA 0 [0, 4, 7]) : ℝ)) + 1e-9)) ^ 2)).sum
          < 1)) :=
  ⟨by with_unfolding_all decide,
   c9_template_banks.2.2.2.2.2.1 (['C'], mkVecA 0 [0, 4, 7])
     (by with_unfolding_all decide)⟩

/-! ## C10: fast-path meter and confidence -/

lemma mergeGo_conf (q : ℚ) : ∀ (rest : List Seg) (cur : Seg), cur.confidence = q →
    (∀ s ∈ rest, s.confidence = q) → ∀ s ∈ mergeGo cur rest, s.confidence = q := by
  intro rest
  induction rest with
  | nil =>
      intro cur hc _ s hs
      rw [mergeGo] at hs
      rcases List.mem_cons.mp hs with h | h
      · rw [h]
        exact hc
      · simp at h
  | cons a tl ih =>
      intro cur hc hall s hs
      rw [mergeGo] at hs
      by_cases hcc : a.chord = cur.chord
      · rw [if_pos hcc] at hs
        refine ih _ ?_ (fun t ht => hall t (List.mem_cons_of_mem a ht)) s hs
        show max cur.confidence a.confidence = q
        rw [hc, hall a (List.mem_cons_self a tl), max_self]
      · rw [if_neg hcc] at hs
        rcases List.mem_cons.mp hs with h | h
        · rw [h]
          exact hc
        · exact ih a (hall a (List.mem_cons_self a tl))
            (fun t ht => hall t (List.mem_cons_of_mem a ht)) s h

lemma mergeConsecutive_conf (l : List Seg) (q : ℚ) (h : ∀ s ∈ l, s.confidence = q) :
    ∀ s ∈ mergeConsecutive l, s.confidence = q := by
  cases l with
  | nil =>
      intro s hs
      simp [mergeConsecutive] at hs
  | cons a tl =>
      intro s hs
      exact mergeGo_conf q tl a (h a (List.mem_cons_self a tl))
        (fun t ht => h t (List.mem_cons_of_mem a ht)) s hs

lemma simpleSegsM_conf : ∀ (cs : List (ℚ × ℚ × List Char)) (l : List Seg),
    simpleSegsM cs = some l → ∀ s ∈ l, s.confidence = 0.95 := by
  intro cs
  induction cs with
  | nil =>
      intro l hl s hs
      simp only [simpleSegsM, Option.some.injEq] at hl
      rw [← hl] at hs
      simp at hs
  | cons c rest ih =>
      intro l hl s hs
      cases hsm : simplifyM c.2.2 with
      | none =>
          rw [simpleSegsM, hsm] at hl
          simp at hl
      | some lab =>
          rw [simpleSegsM, hsm] at hl
          cases hrest : simpleSegsM rest with
          | none =>
              rw [hrest] at hl
              simp at hl
          | some bs =>
              rw [hrest] at hl
              have hl2 : (⟨c.1, c.2.1, lab, 0.95⟩ : Seg) :: bs = l := Option.some.inj hl
              rw [← hl2] at hs
              rcases List.mem_cons.mp hs with h | h
              · rw [h]
              · exact ih bs hrest s h

/-- C10: whatever the three detector outputs are, the fast cached path
reports `meter = 4` unconditionally (no meter estimation runs) and stamps
every segment of both the full and the simple chord list with the constant
confidence 0.95 (no per-segment confidence is computed). -/
theorem c10_madmom_meter_confidence :
    ∀ (chords : List (ℚ × ℚ × List Char)) (keyStr : List Char) (tempo : ℚ) (r : AResult),
      analyzeFileMadmom chords keyStr tempo = some r →
      r.meter = some 4 ∧
      (∀ s ∈ r.chords, s.confidence = 0.95) ∧
      (∀ l, r.simpleChords = some l → ∀ s ∈ l, s.confidence = 0.95) := by
  intro chords keyStr tempo r hr
  have hch : analyzeFileMadmom chords keyStr tempo
      = (simpleSegsM chords).bind (fun simple =>
          some ⟨tempo, some 4, (parseKeyStr keyStr).1, (parseKeyStr keyStr).2,
            mergeConsecutive (chords.map (fun c => (⟨c.1, c.2.1, c.2.2, 0.95⟩ : Seg))),
            some (mergeConsecutive simple)⟩) := rfl
  rw [hch] at hr
  cases hsm : simpleSegsM chords with
  | none =>
      rw [hsm] at hr
      simp at hr
  | some simple =>
      rw [hsm] at hr
      have hr2 := Option.some.inj hr
      rw [← hr2]
      refine ⟨rfl, ?_, ?_⟩
      · intro s hs
        refine mergeConsecutive_conf _ 0.95 ?_ s hs
        intro t ht
        simp only [List.mem_map] at ht
        obtain ⟨c, _, rfl⟩ := ht
        rfl
      · intro l hl s hs
        have hl2 : mergeConsecutive simple = l := Option.some.inj hl
        rw [← hl2] at hs
        exact mergeConsecutive_conf simple 0.95 (simpleSegsM_conf chords simple hsm) s hs

/-- Witness for C10 on a single C-major detection at 120 bpm. -/
theorem c10_madmom_meter_confidence_witness :
    (analyzeFileMadmom [(0, 1, ['C'])] ['C', ' ', 'm', 'a', 'j', 'o', 'r'] 120
        = some ⟨120, some 4, ['C'], ['m', 'a', 'j', 'o', 'r'],
            [⟨0, 1, ['C'], 0.95⟩], some [⟨0, 1, ['C'], 0.95⟩]⟩) ∧
    ((⟨120, some 4, ['C'], ['m', 'a', 'j', 'o', 'r'],
        [⟨0, 1, ['C'], 0.95⟩], some [⟨0, 1, ['C'], 0.95⟩]⟩ : AResult).meter = some 4 ∧
      (∀ s ∈ (⟨120, some 4, ['C'], ['m', 'a', 'j', 'o', 'r'],
          [⟨0, 1, ['C'], 0.95⟩], some [⟨0, 1, ['C'], 0.95⟩]⟩ : AResult).chords,
        s.confidence = 0.95) ∧
      (∀ l, (⟨120, some 4, ['C'], ['m', 'a', 'j', 'o', 'r'],
          [⟨0, 1, ['C'], 0.95⟩], some [⟨0, 1, ['C'], 0.95⟩]⟩ : AResult).simpleChords = some l →
        ∀ s ∈ l, s.confidence = 0.95)) :=
  ⟨by with_unfolding_all decide,
   c10_madmom_meter_confidence [(0, 1, ['C'])] ['C', ' ', 'm', 'a', 'j', 'o', 'r'] 120
     ⟨120, some 4, ['C'], ['m', 'a', 'j', 'o', 'r'],
       [⟨0, 1, ['C'], 0.95⟩], some [⟨0, 1, ['C'], 0.95⟩]⟩
     (by with_unfolding_all decide)⟩
